import Mathlib

/-!
Verification development for the abstraps compiler IR core.

Shallow embedding of the core subsystems found under src/core of the
repository: the IR data model (src/core/ir.rs, src/core/region.rs), the
capability/interface registry (src/core/interfaces.rs), the operation
builder (src/core/builder.rs), the pass manager and analysis manager
(src/core/pass_manager.rs) and the abstract interpreter
(src/core/absint.rs).  Rust machine integers are modelled with Nat/Int,
HashMap with association lists whose lookup returns the most recent
binding for a key (matching HashMap insert-overwrite semantics), and
fallible Rust functions (Result<_, Report>) with Except String.
Rust trait objects carrying behaviour (capability verify methods,
pass bodies, lattice propagation rules) are modelled as Lean functions
held in explicit tables, mirroring the vtable dispatch of the source.
-/

namespace Abstraps

/-- Var from src/core/ir.rs: a dense SSA register, a plain index. -/
structure Var where
  id : Nat
deriving DecidableEq, Repr

/-- Attribute payloads are opaque to the core (Box of dyn Attribute in
src/core/ir.rs); the core only stores and retrieves them by key, so a
numeric payload suffices for the embedding. -/
structure Attribute where
  payload : Nat
deriving DecidableEq, Repr

/-- LocationInfo from src/core/diagnostics.rs. -/
inductive LocationInfo where
  | Unknown : LocationInfo
  | FileLineCol : String → Nat → Nat → LocationInfo
  | NameFileLineCol : String → String → Nat → Nat → LocationInfo
  | InlinedFrom : List LocationInfo → LocationInfo
deriving Repr

/-- Identity of an intrinsic value (src/core/ir.rs trait Intrinsic):
a namespace and a name, plus the TypeId of the concrete Rust type
(used by downcast queries such as is with a type argument). -/
structure IntrinsicId where
  typeTag : Nat
  ns : String
  name : String
deriving DecidableEq, Repr

mutual
/-- Operation from src/core/ir.rs: location, intrinsic, operands,
attributes (key-unique map, modelled as an association list), owned
regions, successors. -/
inductive Operation where
  | mk : Option LocationInfo → IntrinsicId → List Var →
         List (String × Attribute) → List Region → List Nat → Operation

/-- Region from src/core/region.rs: Directed (SSACFG) or Undirected
(Graph). -/
inductive Region where
  | Directed : SSACFG → Region
  | Undirected : Graph → Region

/-- SSACFG from src/core/region.rs: the defs side table Var to
(block index, position) with -1 sentinels, plus the blocks. -/
inductive SSACFG where
  | mk : List (Int × Int) → List BasicBlock → SSACFG

/-- Graph from src/core/region.rs: same fields as SSACFG but with the
single-block discipline enforced by Region.push_block. -/
inductive Graph where
  | mk : List (Int × Int) → List BasicBlock → Graph

/-- BasicBlock from src/core/ir.rs: block parameters (operands) and the
operations of the block. -/
inductive BasicBlock where
  | mk : List Var → List Operation → BasicBlock
end

namespace Operation

def location : Operation → Option LocationInfo
  | .mk l _ _ _ _ _ => l

def intrinsic : Operation → IntrinsicId
  | .mk _ i _ _ _ _ => i

def operands : Operation → List Var
  | .mk _ _ o _ _ _ => o

def attributes : Operation → List (String × Attribute)
  | .mk _ _ _ a _ _ => a

def regions : Operation → List Region
  | .mk _ _ _ _ r _ => r

def successors : Operation → List Nat
  | .mk _ _ _ _ _ s => s

end Operation

namespace BasicBlock

def operands : BasicBlock → List Var
  | .mk ops _ => ops

def ops : BasicBlock → List Operation
  | .mk _ os => os

/-- BasicBlock::default(): empty block. -/
def default : BasicBlock := .mk [] []

end BasicBlock

namespace SSACFG

def defs : SSACFG → List (Int × Int)
  | .mk d _ => d

def blocks : SSACFG → List BasicBlock
  | .mk _ b => b

/-- SSACFG::default(). -/
def default : SSACFG := .mk [] []

end SSACFG

namespace Graph

def defs : Graph → List (Int × Int)
  | .mk d _ => d

def blocks : Graph → List BasicBlock
  | .mk _ b => b

/-- Graph::default(). -/
def default : Graph := .mk [] []

end Graph

/-- Helper mirroring in-place mutation of one vector element
(self.blocks[blk] in the source); out-of-range indices leave the list
unchanged, a case in which the Rust source would panic and which the
reachability relation below rules out. -/
def listModify (l : List α) (n : Nat) (f : α → α) : List α :=
  match l[n]? with
  | none => l
  | some a => l.set n (f a)

namespace SSACFG

/-- SSACFG::push_arg (src/core/region.rs lines 109-114): mint
Var(defs.len()), record (blk, -1), append the Var to the block's
operand list. -/
def push_arg (g : SSACFG) (blk : Nat) : SSACFG × Var :=
  let arg : Var := ⟨g.defs.length⟩
  (SSACFG.mk (g.defs ++ [(Int.ofNat blk, -1)])
    (listModify g.blocks blk (fun b => BasicBlock.mk (b.operands ++ [arg]) b.ops)), arg)

/-- SSACFG::push_block (src/core/region.rs lines 124-127): append. -/
def push_block (g : SSACFG) (b : BasicBlock) : SSACFG :=
  SSACFG.mk g.defs (g.blocks ++ [b])

/-- SSACFG::push_op (src/core/region.rs lines 145-152): mint
Var(defs.len()), append the op to block blk, record (blk, old length of
the block's ops). -/
def push_op (g : SSACFG) (blk : Nat) (v : Operation) : SSACFG × Var :=
  let arg : Var := ⟨g.defs.length⟩
  let len : Nat := match g.blocks[blk]? with
    | none => 0
    | some b => b.ops.length
  (SSACFG.mk (g.defs ++ [(Int.ofNat blk, Int.ofNat len)])
    (listModify g.blocks blk (fun b => BasicBlock.mk b.operands (b.ops ++ [v]))), arg)

/-- SSACFG::get_var_blockidx (src/core/region.rs lines 178-185). -/
def get_var_blockidx (g : SSACFG) (v : Var) : Option (Nat × Int) :=
  let p := (g.defs[v.id]?).getD (-1, -1)
  if p.2 < 0 then none else some (p.1.toNat, p.2)

/-- SSACFG::get_op (src/core/region.rs lines 132-141); returns none
where the source would index out of bounds after a successful
get_var_blockidx (impossible on well-formed regions). -/
def get_op (g : SSACFG) (v : Var) : Option (Var × Operation) :=
  match g.get_var_blockidx v with
  | none => none
  | some (b, i) =>
    match g.blocks[b]? with
    | none => none
    | some bb =>
      match bb.ops[i.toNat]? with
      | none => none
      | some inst => some (v, inst)

end SSACFG

namespace Graph

/-- Graph::has_block (src/core/region.rs lines 45-50). -/
def has_block (g : Graph) : Bool :=
  match g.blocks.length with
  | 0 => false
  | _ => true

/-- Graph::push_block (src/core/region.rs lines 52-55): replaces the
block list with the singleton. -/
def push_block (g : Graph) (blk : BasicBlock) : Graph :=
  Graph.mk g.defs [blk]

/-- Graph::push_op (src/core/region.rs lines 67-74): mint
Var(defs.len()), push onto block 0, record (0, old length). -/
def push_op (g : Graph) (v : Operation) : Graph × Var :=
  let arg : Var := ⟨g.defs.length⟩
  let len : Nat := match g.blocks[0]? with
    | none => 0
    | some b => b.ops.length
  (Graph.mk (g.defs ++ [((0 : Int), Int.ofNat len)])
    (listModify g.blocks 0 (fun b => BasicBlock.mk b.operands (b.ops ++ [v]))), arg)

/-- Graph::get_var_blockidx (src/core/region.rs lines 25-32). -/
def get_var_blockidx (g : Graph) (v : Var) : Option (Nat × Int) :=
  let p := (g.defs[v.id]?).getD (-1, -1)
  if p.2 < 0 then none else some (p.1.toNat, p.2)

/-- Graph::get_op (src/core/region.rs lines 34-43). -/
def get_op (g : Graph) (v : Var) : Option (Var × Operation) :=
  match g.get_var_blockidx v with
  | none => none
  | some (b, i) =>
    match g.blocks[b]? with
    | none => none
    | some bb =>
      match bb.ops[i.toNat]? with
      | none => none
      | some inst => some (v, inst)

end Graph

namespace Region

/-- Region::len (src/core/region.rs lines 216-221). -/
def len : Region → Nat
  | .Directed g => g.defs.length
  | .Undirected g => g.defs.length

/-- Region::push_arg (src/core/region.rs lines 223-230): Graph regions
reject block parameters. -/
def push_arg : Region → Nat → Except String (Region × Var)
  | .Directed g, ind =>
    let p := g.push_arg ind
    .ok (.Directed p.1, p.2)
  | .Undirected _, _ => .error "Cannot push argument onto Graph region."

/-- Region::push_op (src/core/region.rs lines 232-237). -/
def push_op : Region → Nat → Operation → Region × Var
  | .Directed g, blk, op =>
    let p := g.push_op blk op
    (.Directed p.1, p.2)
  | .Undirected g, _, op =>
    let p := g.push_op op
    (.Undirected p.1, p.2)

/-- Region::push_block (src/core/region.rs lines 246-261): Graph
regions accept at most one block. -/
def push_block : Region → BasicBlock → Except String Region
  | .Directed g, b => .ok (.Directed (g.push_block b))
  | .Undirected g, b =>
    if g.has_block
    then .error "Cannot push block onto Graph region which already has a block."
    else .ok (.Undirected (g.push_block b))

/-- Region::get_op (src/core/region.rs lines 239-244). -/
def get_op : Region → Var → Option (Var × Operation)
  | .Directed g, v => g.get_op v
  | .Undirected g, v => g.get_op v

/-- Number of blocks of a region. -/
def blocksOf : Region → List BasicBlock
  | .Directed g => g.blocks
  | .Undirected g => g.blocks

/-- Defs table of a region. -/
def defsOf : Region → List (Int × Int)
  | .Directed g => g.defs
  | .Undirected g => g.defs

end Region

/-!
Interface machinery (src/core/interfaces.rs).

A capability query on a value is answered by query_vtable, synthesized
by the interfaces macro: it checks the concrete type itself, then the
built-in Object trait, then the statically declared interface list, and
finally falls back to the global registry filled by the
dynamic_interfaces macro.  TypeIds become Nat tags; vtable pointers
become the symbolic VTable tokens produced at the same program points
as the source's vtable_for expansions.
-/

/-- Symbolic vtable: VTable::none() for the concrete type itself, or
the vtable_for token of a (type, trait) pair. -/
inductive VTable where
  | null : VTable
  | forPair : Nat → Nat → VTable
deriving DecidableEq, Repr

/-- TypeId of the built-in Object trait, a fixed distinguished tag. -/
def objectId : Nat := 0

/-- Registry from src/core/interfaces.rs lines 444-464: a map from
(concrete TypeId, trait TypeId) to a vtable.  HashMap semantics are
modelled by consing on register and returning the first match on find. -/
structure Registry where
  entries : List ((Nat × Nat) × VTable)
deriving DecidableEq, Repr

namespace Registry

/-- Registry::register (insert-overwrite on the key pair). -/
def register (r : Registry) (typeId traitId : Nat) (vt : VTable) : Registry :=
  ⟨((typeId, traitId), vt) :: r.entries⟩

/-- Registry::find. -/
def find (r : Registry) (typeId traitId : Nat) : Option VTable :=
  (r.entries.find? (fun e => e.1.1 == typeId && e.1.2 == traitId)).map (fun e => e.2)

/-- The empty registry (Registry::default, before any registration). -/
def empty : Registry := ⟨[]⟩

end Registry

/-- Static shape of a type that went through the interfaces macro: its
concrete TypeId and the TypeIds of the traits in its declared list. -/
structure TypeDecl where
  selfId : Nat
  ifaces : List Nat
deriving DecidableEq, Repr

/-- query_vtable as synthesized by interfaces (src/core/interfaces.rs
lines 339-353): self type, then Object, then the declared list in
order, then the dynamic registry. -/
def queryVtable (d : TypeDecl) (reg : Registry) (id : Nat) : Option VTable :=
  if id = d.selfId then some VTable.null
  else if id = objectId then some (VTable.forPair d.selfId objectId)
  else
    match d.ifaces.find? (fun c => c == id) with
    | some c => some (VTable.forPair d.selfId c)
    | none => reg.find d.selfId id

/-- A runtime value of a declared type.  createdAt records when the
value was created, so that the stability part of the query contract
(queries on values created before a dynamic registration) is statable;
the source keeps no such field, and the embedding shows queries ignore
it. -/
structure ObjValue where
  decl : TypeDecl
  createdAt : Nat
deriving DecidableEq, Repr

/-- query_ref from the mopo macro (src/core/interfaces.rs lines 56-69):
returns a typed handle exactly when query_vtable finds a vtable. -/
def queryRef (v : ObjValue) (reg : Registry) (id : Nat) : Option VTable :=
  queryVtable v.decl reg id

/-- dynamic_interfaces (src/core/interfaces.rs lines 538-549) for one
type: registers the type itself, Object, and each listed trait. -/
def dynamicInterfaces (reg : Registry) (d : TypeDecl) (cs : List Nat) : Registry :=
  let reg1 := reg.register d.selfId d.selfId VTable.null
  let reg2 := reg1.register d.selfId objectId (VTable.forPair d.selfId objectId)
  cs.foldl (fun r c => r.register d.selfId c (VTable.forPair d.selfId c)) reg2

/-- A registry built from the empty one by a sequence of
dynamic_interfaces invocations. -/
def registryOfCalls (calls : List (TypeDecl × List Nat)) : Registry :=
  calls.foldl (fun r p => dynamicInterfaces r p.1 p.2) Registry.empty

/-!
Intrinsic declarations and the operation builder (src/core/ir.rs,
src/core/builder.rs).

The intrinsic macro synthesizes, for a declared intrinsic, a verify
that invokes verify on every claimed capability (the auto-implemented
ones first, then the ones the user must implement).  Those capability
verify methods are arbitrary user code reading the operation; they are
modelled as functions held in the declaration.
-/

/-- Declarative intrinsic (the intrinsic macro, src/core/ir.rs lines
79-112): identity plus the verify methods of the claimed capabilities,
auto-implemented traits first, then the required (user-implemented)
ones. -/
structure IntrinsicDecl where
  id : IntrinsicId
  traitVerifiers : List (Operation → Except String Unit)
  requiredVerifiers : List (Operation → Except String Unit)

/-- Run a list of capability verify methods in order, stopping at the
first error (the question-mark chain in the synthesized verify). -/
def runVerifiers : List (Operation → Except String Unit) → Operation → Except String Unit
  | [], _ => .ok ()
  | f :: fs, op =>
    match f op with
    | .error e => .error e
    | .ok _ => runVerifiers fs op

/-- Intrinsic::verify as synthesized by the intrinsic macro
(src/core/ir.rs lines 100-104): every claimed trait's verify, then
every required trait's verify. -/
def IntrinsicDecl.verify (d : IntrinsicDecl) (op : Operation) : Except String Unit :=
  match runVerifiers d.traitVerifiers op with
  | .error e => .error e
  | .ok _ => runVerifiers d.requiredVerifiers op

/-- OperationBuilder from src/core/builder.rs lines 27-37.  The source
draft stores successors as blocks while Operation stores block indices;
the index representation is used for both here (the field plays no role
in any claim). -/
structure OperationBuilder where
  latest : List Var
  cursor : Nat × Nat
  location : Option LocationInfo
  intrinsic : IntrinsicId
  operands : List Var
  attributes : List (String × Attribute)
  regions : List Region
  successors : List Nat

namespace OperationBuilder

/-- OperationBuilder::default (src/core/builder.rs lines 54-65). -/
def default (intr : IntrinsicId) (loc : Option LocationInfo) : OperationBuilder :=
  { latest := [], cursor := (0, 0), location := loc, intrinsic := intr,
    operands := [], attributes := [], regions := [], successors := [] }

/-- Operation::new applied to the builder's fields, the body of
finish. -/
def toOperation (b : OperationBuilder) : Operation :=
  .mk b.location b.intrinsic b.operands b.attributes b.regions b.successors

/-- OperationBuilder::finish (src/core/builder.rs lines 204-213): the
source constructs the Operation from the builder's fields and returns
Ok unconditionally; no verification is invoked. -/
def finish (b : OperationBuilder) : Except String Operation :=
  .ok b.toOperation

end OperationBuilder

/-!
Analysis manager (src/core/pass_manager.rs lines 32-63).

AnalysisKey::to_pass and AnalysisPass::apply are user trait methods
with access to ambient mutable state (apply takes the pass by mutable
reference, and user implementations may count invocations or touch
globals, as the repository's counting-stub test scenario does).  The
embedding therefore passes an explicit callback state S through both
callbacks, and apply returns the updated pass object on success.
-/

/-- User-supplied analysis callbacks: to_pass materializes a pass from
a key and an operation, apply runs the pass on an operation.  S is the
callback-owned ambient state. -/
structure AnalysisOps (S K P O E : Type) where
  toPass : S → K → O → S × P
  applyPass : S → P → O → S × Except E P

/-- AnalysisManager (src/core/pass_manager.rs lines 32-34): the cache
from keys to pass objects.  HashMap semantics: insert conses, lookup
returns the most recent binding. -/
structure AnalysisManager (K P : Type) where
  cached : List (K × P)

namespace AnalysisManager

/-- AnalysisManager::new. -/
def new : AnalysisManager K P := ⟨[]⟩

/-- Cache insertion (self.cached.insert(Box::new(key), pass)). -/
def insertCached [DecidableEq K] (am : AnalysisManager K P) (k : K) (p : P) :
    AnalysisManager K P :=
  ⟨(k, p) :: am.cached⟩

/-- AnalysisManager::ask (src/core/pass_manager.rs lines 57-62):
cache lookup only. -/
def ask [DecidableEq K] (am : AnalysisManager K P) (k : K) : Option P :=
  (am.cached.find? (fun e => decide (e.1 = k))).map (fun e => e.2)

/-- AnalysisManager::analyze (src/core/pass_manager.rs lines 47-55):
materialize a pass with to_pass, run apply, and on success insert the
pass object into the cache; the apply error propagates before any
insertion.  The manager is threaded explicitly (Rust mutates self). -/
def analyze [DecidableEq K] (ops : AnalysisOps S K P O E) (s : S)
    (am : AnalysisManager K P) (k : K) (op : O) :
    S × AnalysisManager K P × Except E Unit :=
  let sp := ops.toPass s k op
  match ops.applyPass sp.1 sp.2 op with
  | (s2, .error e) => (s2, am, .error e)
  | (s2, .ok p2) => (s2, am.insertCached k p2, .ok ())

end AnalysisManager

/-!
Operation pass manager (src/core/pass_manager.rs lines 78-184).

OperationPass::apply receives the operation and the analysis manager
behind locks and may mutate both; it is modelled as a function from the
pair to the updated pair.  target_intrinsic returns an optional boxed
intrinsic whose only use is the TypeId test is with the manager's
type parameter, so the model keeps the TypeId.
-/

/-- An OperationPass (src/core/pass_manager.rs lines 78-99): the
optional target intrinsic TypeId and the apply body.  A is the analysis
manager type threaded through the walk. -/
structure OperationPassModel (A : Type) where
  targetIntrinsic : Option Nat
  applyP : Operation → A → Except String (Operation × A)

/-- OperationPassManager (src/core/pass_manager.rs lines 101-109): the
target intrinsic tag (the type parameter T), owned passes, nested
managers, and the optional analysis manager (taken during prewalk). -/
inductive OperationPassManager (A : Type) where
  | mk : Nat → List (OperationPassModel A) → List (OperationPassManager A) →
         Option A → OperationPassManager A

namespace OperationPassManager

def intrinsicTag : OperationPassManager A → Nat
  | .mk t _ _ _ => t

def passes : OperationPassManager A → List (OperationPassModel A)
  | .mk _ p _ _ => p

def managers : OperationPassManager A → List (OperationPassManager A)
  | .mk _ _ m _ => m

def analysis : OperationPassManager A → Option A
  | .mk _ _ _ a => a

/-- OperationPassManager::new (src/core/pass_manager.rs lines
115-123). -/
def new (A : Type) (tag : Nat) : OperationPassManager A :=
  .mk tag [] [] none

/-- PassManager::check for OperationPassManager (src/core/
pass_manager.rs lines 134-136): the downcast test of the operation's
intrinsic against the manager's type parameter T, a TypeId equality. -/
def check (m : OperationPassManager A) (op : Operation) : Bool :=
  op.intrinsic.typeTag == m.intrinsicTag

/-- The pass loop of prewalk: apply each owned pass in insertion order
under the lock, bailing on the first error. -/
def applyPasses : List (OperationPassModel A) → Operation → A →
    Except String (Operation × A)
  | [], op, a => .ok (op, a)
  | p :: ps, op, a =>
    match p.applyP op a with
    | .error e => .error e
    | .ok (op2, a2) => applyPasses ps op2 a2

/-- PassManager::prewalk for OperationPassManager (src/core/
pass_manager.rs lines 138-149): check the intrinsic type, take the
analysis manager, apply the owned passes in order, and return the
operation.  The taken-analysis-manager unwrap panic of the source is
modelled as an error; the nested managers field is never consulted by
the source. -/
def prewalk (m : OperationPassManager A) (op : Operation) : Except String Operation :=
  if !m.check op then
    .error "Operation intrinsic type is not the same as pass manager."
  else
    match m.analysis with
    | none => .error "analysis manager already taken"
    | some a0 =>
      match applyPasses m.passes op a0 with
      | .error e => .error e
      | .ok (op2, _) => .ok op2

/-- OperationPassManager::push (src/core/pass_manager.rs lines
168-178): reject a pass whose target intrinsic TypeId disagrees with
the manager's. -/
def push (m : OperationPassManager A) (p : OperationPassModel A) :
    Except String (OperationPassManager A) :=
  match p.targetIntrinsic with
  | none => .ok (.mk m.intrinsicTag (m.passes ++ [p]) m.managers m.analysis)
  | some v =>
    if v == m.intrinsicTag
    then .ok (.mk m.intrinsicTag (m.passes ++ [p]) m.managers m.analysis)
    else .error "Operation pass must operate on same intrinsic as pass manager."

/-- OperationPassManager::nest (src/core/pass_manager.rs lines
180-183). -/
def nest (m : OperationPassManager A) (child : OperationPassManager A) :
    Except String (OperationPassManager A) :=
  .ok (.mk m.intrinsicTag m.passes (m.managers ++ [child]) m.analysis)

end OperationPassManager

/-!
Abstract interpreter (src/core/absint.rs).

The lattice-semantics capability query on an intrinsic is modelled by
an explicit semantics table sem from intrinsic identities to optional
propagate functions, standing for query_ref against the dynamic
LatticeSemantics interface.  The environment is the Vec of optional
lattice values indexed by Var id.
-/

/-- InterpreterError (src/core/absint.rs line 11) is an empty enum. -/
inductive InterpreterError where

/-- Signature (src/core/absint.rs lines 146-159). -/
structure Signature (L : Type) where
  symbol : String
  env : List (Option L)

/-- InterpreterState (src/core/absint.rs lines 13-20). -/
inductive InterpreterState (L : Type) where
  | Inactive : InterpreterState L
  | Active : InterpreterState L
  | Waiting : Signature L → InterpreterState L
  | Failed : InterpreterError → InterpreterState L
  | Finished : InterpreterState L

/-- Interpreter (src/core/absint.rs lines 55-62). -/
structure Interpreter (L : Type) where
  state : InterpreterState L
  active : Nat
  block_queue : List Nat
  env : List (Option L)
  trace : Option OperationBuilder

/-- Vec::insert semantics: shift the suffix right and place the element
at the index.  An index beyond the length would panic in Rust; the
model returns the empty list there, a branch never taken in the proofs
below. -/
def listInsertIdx : List α → Nat → α → List α
  | l, 0, a => a :: l
  | [], _ + 1, _ => []
  | x :: xs, n + 1, a => x :: listInsertIdx xs n a

namespace Interpreter

/-- Interpreter::new (src/core/absint.rs lines 80-89). -/
def new (env : List (Option L)) : Interpreter L :=
  { state := .Active, active := 0, block_queue := [], env := env, trace := none }

/-- Interpreter::get (src/core/absint.rs lines 99-107): the operand's
current lattice value, or an unresolved-operand error. -/
def get (i : Interpreter L) (v : Var) : Except String L :=
  match i.env[v.id]? with
  | some (some l) => .ok l
  | _ => .error "No type for SSA variable."

/-- Helper for resolve_to_lattice: collect operand values, stopping at
the first unresolved one (the collect over Results in the source). -/
def resolveGo (i : Interpreter L) : List Var → Except String (List L)
  | [] => .ok []
  | v :: vs =>
    match i.get v with
    | .error e => .error e
    | .ok l =>
      match resolveGo i vs with
      | .error e => .error e
      | .ok ls => .ok (l :: ls)

/-- Interpreter::resolve_to_lattice (src/core/absint.rs lines
109-115). -/
def resolve_to_lattice (i : Interpreter L) (op : Operation) : Except String (List L) :=
  resolveGo i op.operands

/-- Interpreter::insert (src/core/absint.rs lines 118-124, the method
marked TODO in the source): guard comparing env length against id - 1
(Nat subtraction; the Rust usize subtraction underflows for id 0), then
either push at the end or Vec::insert at the id. -/
def insert (i : Interpreter L) (v : Var) (l : L) : Interpreter L :=
  if i.env.length < v.id - 1 then { i with env := i.env ++ [some l] }
  else { i with env := listInsertIdx i.env v.id (some l) }

end Interpreter

/-!
The block iterator (src/core/region.rs lines 272-304): get_block_iter
sorts the defs of the requested block by position and yields
(Var, Operation) pairs through get_op, terminating at the first var
that does not resolve to an operation.
-/

/-- Stable insertion into a list sorted by a boolean comparison
(models the stable sort_by of the source). -/
def sortedInsert (le : α → α → Bool) (a : α) : List α → List α
  | [] => [a]
  | x :: xs => if le x a then x :: sortedInsert le a xs else a :: x :: xs

/-- Stable insertion sort by a boolean comparison. -/
def sortByBool (le : α → α → Bool) : List α → List α
  | [] => []
  | x :: xs => sortedInsert le x (sortByBool le xs)

/-- Lexicographic order on the (block, position) def pairs, the
comparison used by sort_by in get_block_vars. -/
def defLe (a b : Nat × (Int × Int)) : Bool :=
  a.2.1 < b.2.1 || (a.2.1 == b.2.1 && a.2.2 ≤ b.2.2)

/-- SSACFG::get_block_vars (src/core/region.rs lines 166-175):
enumerate defs, keep entries of the block with nonnegative position,
sort by the def pair, return the Vars. -/
def SSACFG.get_block_vars (g : SSACFG) (id : Nat) : List Var :=
  let filtered := g.defs.enum.filter (fun e => e.2.1 == (id : Int) && e.2.2 ≥ 0)
  (sortByBool defLe filtered).map (fun e => ⟨e.1⟩)

/-- Graph::get_block_vars (src/core/region.rs lines 58-63). -/
def Graph.get_block_vars (g : Graph) : List Var :=
  let filtered := g.defs.enum.filter (fun e => e.2.2 ≥ 0)
  (sortByBool defLe filtered).map (fun e => ⟨e.1⟩)

/-- The traversal of ImmutableBlockIterator: yield get_op results in
order, ending at the first var without one (Iterator::next returns the
Option unconditionally, so a None ends the iteration). -/
def iterCollect (r : Region) : List Var → List (Var × Operation)
  | [] => []
  | v :: vs =>
    match r.get_op v with
    | none => []
    | some p => p :: iterCollect r vs

/-- Region::get_block_iter (src/core/region.rs lines 291-304). -/
def Region.get_block_iter (r : Region) (id : Nat) : List (Var × Operation) :=
  let ks := match r with
    | .Directed g => g.get_block_vars id
    | .Undirected g => g.get_block_vars
  iterCollect r ks

namespace Interpreter

/-- The operation loop of Interpreter::step: for each (v, o) of the
block iterator, query the lattice semantics of the intrinsic (error if
absent), resolve the operands (error if one is unresolved), propagate,
and bind the result to the defining var. -/
def stepGo (sem : IntrinsicId → Option (Operation → List L → Except String L)) :
    Interpreter L → List (Var × Operation) → Except String (Interpreter L)
  | i, [] => .ok i
  | i, (v, o) :: rest =>
    match sem o.intrinsic with
    | none => .error "Intrinsic fails to support lattice semantics."
    | some lintr =>
      match i.resolve_to_lattice o with
      | .error e => .error e
      | .ok vtypes =>
        match lintr o vtypes with
        | .error e => .error e
        | .ok ltype => stepGo sem (i.insert v ltype) rest

/-- Interpreter::step (src/core/absint.rs lines 126-139): iterate over
the operations of the active block of the operation's first region.
The source indexes get_regions()[0] unconditionally and would panic on
an operation without regions; that is modelled as an error. -/
def step (sem : IntrinsicId → Option (Operation → List L → Except String L))
    (i : Interpreter L) (op : Operation) : Except String (Interpreter L) :=
  match op.regions.head? with
  | none => .error "operation has no region"
  | some r => stepGo sem i (r.get_block_iter i.active)

end Interpreter

/-!
Structural invariants of regions under the construction API.

Reach captures the regions obtainable from an empty region by the
Region methods, pushing freshly created (empty) blocks, with the
index preconditions under which the Rust source does not panic; this is
exactly the construction discipline of the repository's builders, which
always push BasicBlock::default().
-/

/-- Index precondition of Region::push_op: the Directed case indexes
the requested block, the Undirected case always indexes block 0. -/
def blkOk : Region → Nat → Prop
  | .Directed g, blk => blk < g.blocks.length
  | .Undirected g, _ => 0 < g.blocks.length

/-- Regions reachable from an empty region through the construction
API with empty blocks. -/
inductive Reach : Region → Prop where
  | emptyDirected : Reach (.Directed SSACFG.default)
  | emptyUndirected : Reach (.Undirected Graph.default)
  | pushBlock {r r' : Region} : Reach r →
      r.push_block BasicBlock.default = .ok r' → Reach r'
  | pushArg {r : Region} {blk : Nat} {r' : Region} {v : Var} : Reach r →
      blk < r.blocksOf.length → r.push_arg blk = .ok (r', v) → Reach r'
  | pushOp {r : Region} {blk : Nat} {op : Operation} {r' : Region} {v : Var} :
      Reach r → blkOk r blk → r.push_op blk op = (r', v) → Reach r'

/-- Total number of block parameters across the blocks. -/
def totalParams : List BasicBlock → Nat
  | [] => 0
  | b :: bs => b.operands.length + totalParams bs

/-- Total number of operations across the blocks. -/
def totalOps : List BasicBlock → Nat
  | [] => 0
  | b :: bs => b.ops.length + totalOps bs

/-- Number of operations of block b (the quantity push_op records as
the position of a newly pushed operation). -/
def opsLenAt (bs : List BasicBlock) (b : Nat) : Nat :=
  match bs[b]? with
  | none => 0
  | some blk => blk.ops.length

/-- Well-formedness of one defs entry: it points into an existing
block, and is either the block-parameter sentinel or an in-range
operation position. -/
def EntryOk (bs : List BasicBlock) (e : Int × Int) : Prop :=
  0 ≤ e.1 ∧ e.1.toNat < bs.length ∧
    (e.2 = -1 ∨ (0 ≤ e.2 ∧ e.2.toNat < opsLenAt bs e.1.toNat))

/-- No two distinct Vars defined by operations share a defs entry. -/
def OpEntriesInj (defs : List (Int × Int)) : Prop :=
  ∀ (i j : Nat) (e : Int × Int), defs[i]? = some e → defs[j]? = some e → 0 ≤ e.2 → i = j

/-- The var-density invariant of a region together with the entry
bounds needed to preserve it. -/
def RegionWF (r : Region) : Prop :=
  r.defsOf.length = totalParams r.blocksOf + totalOps r.blocksOf
  ∧ (∀ e ∈ r.defsOf, EntryOk r.blocksOf e)
  ∧ OpEntriesInj r.defsOf

/-- The Graph discipline: at most one block and no region-minted block
parameters (no defs entry with a negative position). -/
def GraphShape : Region → Prop
  | .Directed _ => True
  | .Undirected g => g.blocks.length ≤ 1 ∧ ∀ e ∈ g.defs, 0 ≤ e.2

/-!
Specification-side relation for the interpreter step (the contract of
section 4.6 of the spec): every operation of the block has lattice
semantics, its operands resolve in the environment current when it is
reached, and the propagated value is bound to the defining var. -/

inductive StepOk {L : Type}
    (sem : IntrinsicId → Option (Operation → List L → Except String L)) :
    Interpreter L → List (Var × Operation) → Interpreter L → Prop where
  | nil (i : Interpreter L) : StepOk sem i [] i
  | cons {i : Interpreter L} {v : Var} {o : Operation}
      {f : Operation → List L → Except String L} {vtypes : List L} {ltype : L}
      {rest : List (Var × Operation)} {i' : Interpreter L} :
      sem o.intrinsic = some f →
      i.resolve_to_lattice o = .ok vtypes →
      f o vtypes = .ok ltype →
      StepOk sem (i.insert v ltype) rest i' →
      StepOk sem i ((v, o) :: rest) i'

/-- OperationBuilder::set_operands (src/core/builder.rs lines 83-85). -/
def OperationBuilder.set_operands (b : OperationBuilder) (args : List Var) :
    OperationBuilder :=
  { b with operands := args }

/-- Formalization of the uniqueness clause of the var-density property
as the specification states it: distinct live Vars (entries other than
the dead sentinel) never share a (block, position) defs entry. -/
def UniqueLiveEntries (r : Region) : Prop :=
  ∀ (i j : Nat) (e e' : Int × Int), r.defsOf[i]? = some e → r.defsOf[j]? = some e' →
    e ≠ (-1, -1) → e' ≠ (-1, -1) → e = e' → i = j

/-!
Concrete instances used to evaluate the claims on explicit inputs.
-/

/-- A NonVariadic-style capability verify: fails unless the operation
has exactly two operands (the arity check the repository's tests
implement for the Add intrinsic). -/
def nonVariadicVerify (op : Operation) : Except String Unit :=
  if op.operands.length ≠ 2 then .error "NonVariadic arity mismatch." else .ok ()

def addIntrinsicId : IntrinsicId := ⟨10, "arith", "add"⟩

/-- The Add intrinsic declared with the NonVariadic capability as its
one required capability. -/
def addDecl : IntrinsicDecl := ⟨addIntrinsicId, [], [nonVariadicVerify]⟩

/-- A builder for an Add operation over three operands, violating
NonVariadic. -/
def addBuilder3 : OperationBuilder :=
  (OperationBuilder.default addIntrinsicId none).set_operands [⟨0⟩, ⟨1⟩, ⟨2⟩]

/-- An intrinsic declaration whose single claimed capability always
verifies. -/
def chainOkDecl : IntrinsicDecl := ⟨⟨11, "test", "ok"⟩, [fun _ => .ok ()], []⟩

def emptyTestOp : Operation := .mk none ⟨11, "test", "ok"⟩ [] [] [] []

def c2decl : TypeDecl := ⟨5, [7]⟩

def c2value : ObjValue := ⟨c2decl, 3⟩

/-- One dynamic_interfaces call binding capability 9 to type 5. -/
def c2calls : List (TypeDecl × List Nat) := [(⟨5, []⟩, [9])]

/-- Analysis callbacks whose to_pass counts its invocations in the
callback state (the counting-stub instrumentation of the repository's
cache-hit test scenario). -/
def countingOps : AnalysisOps Nat Unit Nat Nat String :=
  ⟨fun s _ _ => (s + 1, 0), fun s p _ => (s, .ok p)⟩

def c3firstRun : Nat × AnalysisManager Unit Nat × Except String Unit :=
  AnalysisManager.analyze countingOps 0 AnalysisManager.new () 0

def c3secondRun : Nat × AnalysisManager Unit Nat × Except String Unit :=
  AnalysisManager.analyze countingOps c3firstRun.1 c3firstRun.2.1 () 0

/-- Analysis callbacks whose apply always fails. -/
def failingOps : AnalysisOps Nat Unit Nat Nat String :=
  ⟨fun s _ _ => (s, 0), fun s _ _ => (s, .error "apply failed")⟩

def childOp : Operation := .mk none ⟨2, "builtin", "func"⟩ [] [] [] []

def visitedChildOp : Operation :=
  .mk none ⟨2, "builtin", "func"⟩ [] [("visited", ⟨1⟩)] [] []

/-- A pass targeting intrinsic type 2 that marks the operation it runs
on with a visited attribute. -/
def markPass : OperationPassModel Unit :=
  ⟨some 2, fun op a => .ok (Operation.mk op.location op.intrinsic op.operands
    (("visited", ⟨1⟩) :: op.attributes) op.regions op.successors, a)⟩

def nestedManager : OperationPassManager Unit := .mk 2 [markPass] [] (some ())

def parentRegion : Region :=
  .Undirected (Graph.mk [(0, 0)] [BasicBlock.mk [] [childOp]])

/-- A module-like operation of intrinsic type 1 holding one child of
intrinsic type 2 in its region. -/
def parentOp : Operation := .mk none ⟨1, "builtin", "module"⟩ [] [] [parentRegion] []

def outerManager : OperationPassManager Unit := .mk 1 [] [nestedManager] (some ())

/-- A pass whose target intrinsic TypeId disagrees with manager tag 1. -/
def mismatchPass : OperationPassModel Unit := ⟨some 3, fun op a => .ok (op, a)⟩

def c5manager : OperationPassManager Unit := .mk 1 [] [] (some ())

def c6op : Operation := .mk none ⟨3, "test", "op"⟩ [] [] [] []

def c6region1 : Region := .Undirected (Graph.mk [] [BasicBlock.mk [] []])

def c6graph2 : Graph := Graph.mk [(0, 0)] [BasicBlock.mk [] [c6op]]

def c6region2 : Region := .Undirected c6graph2

def c7r1 : Region := .Directed (SSACFG.mk [] [BasicBlock.mk [] []])

def c7r2 : Region := .Directed (SSACFG.mk [(0, -1)] [BasicBlock.mk [⟨0⟩] []])

/-- The region obtained by pushing one empty block and two block
parameters: its two live Vars share the defs entry (0, -1). -/
def c7r3 : Region :=
  .Directed (SSACFG.mk [(0, -1), (0, -1)] [BasicBlock.mk [⟨0⟩, ⟨1⟩] []])

/-- A semantics table offering lattice semantics to no intrinsic. -/
def noSemTable : IntrinsicId → Option (Operation → List Nat → Except String Nat) :=
  fun _ => none

def c8innerOp : Operation := .mk none ⟨4, "arith", "add"⟩ [] [] [] []

def c8graph : Graph := Graph.mk [(0, 0)] [BasicBlock.mk [] [c8innerOp]]

def c8op : Operation := .mk none ⟨1, "builtin", "func"⟩ [] [] [.Undirected c8graph] []

def c8interp : Interpreter Nat := Interpreter.new []

/-- An interpreter environment binding Vars 0, 1, 2 to 10, 20, 30. -/
def c9interp : Interpreter Nat :=
  { state := .Active, active := 0, block_queue := [], env := [some 10, some 20, some 30],
    trace := none }

theorem listModify_nil (n : Nat) (f : α → α) : listModify [] n f = [] := by
  simp [listModify]

theorem listModify_cons_zero (x : α) (xs : List α) (f : α → α) :
    listModify (x :: xs) 0 f = f x :: xs := by
  simp [listModify, List.set]

theorem listModify_cons_succ (x : α) (xs : List α) (n : Nat) (f : α → α) :
    listModify (x :: xs) (n + 1) f = x :: listModify xs n f := by
  unfold listModify
  cases h : xs[n]? with
  | none => simp [h]
  | some a => simp [h, List.set]

theorem listModify_length (l : List α) (n : Nat) (f : α → α) :
    (listModify l n f).length = l.length := by
  induction l generalizing n with
  | nil => rfl
  | cons x xs ih =>
    cases n with
    | zero => simp [listModify_cons_zero]
    | succ m => simp [listModify_cons_succ, ih]

theorem listModify_getElem_self {l : List α} {n : Nat} {a : α} (f : α → α)
    (h : l[n]? = some a) : (listModify l n f)[n]? = some (f a) := by
  induction l generalizing n with
  | nil => simp at h
  | cons x xs ih =>
    cases n with
    | zero =>
      simp at h
      subst h
      simp [listModify_cons_zero]
    | succ m =>
      simp at h
      simp [listModify_cons_succ, ih h]

theorem listModify_getElem_ne {l : List α} {n m : Nat} (f : α → α) (h : m ≠ n) :
    (listModify l n f)[m]? = l[m]? := by
  induction l generalizing n m with
  | nil => rfl
  | cons x xs ih =>
    cases n with
    | zero =>
      cases m with
      | zero => exact absurd rfl h
      | succ k => simp [listModify_cons_zero]
    | succ nn =>
      cases m with
      | zero => simp [listModify_cons_succ]
      | succ k =>
        simp [listModify_cons_succ]
        exact ih (fun hk => h (by simp [hk]))

theorem listModify_of_none {l : List α} {n : Nat} (f : α → α) (h : l[n]? = none) :
    listModify l n f = l := by
  simp [listModify, h]

theorem append_single_getElem (l : List α) (a : α) (i : Nat) :
    (l ++ [a])[i]? =
      if i < l.length then l[i]? else if i = l.length then some a else none := by
  induction l generalizing i with
  | nil =>
    cases i with
    | zero => simp
    | succ k => simp
  | cons x xs ih =>
    cases i with
    | zero => simp
    | succ k =>
      simp only [List.cons_append, List.getElem?_cons_succ, ih, List.length_cons]
      by_cases h1 : k < xs.length
      · simp [h1, Nat.succ_lt_succ h1]
      · by_cases h2 : k = xs.length
        · simp [h1, h2]
        · have : ¬ (k + 1 < xs.length + 1) := by omega
          have h3 : ¬ (k + 1 = xs.length + 1) := by omega
          simp [h1, h2, this, h3]

theorem totalParams_append (bs cs : List BasicBlock) :
    totalParams (bs ++ cs) = totalParams bs + totalParams cs := by
  induction bs with
  | nil => simp [totalParams]
  | cons b bs ih => simp [totalParams, ih]; omega

theorem totalOps_append (bs cs : List BasicBlock) :
    totalOps (bs ++ cs) = totalOps bs + totalOps cs := by
  induction bs with
  | nil => simp [totalOps]
  | cons b bs ih => simp [totalOps, ih]; omega

theorem totalParams_modify_addArg (bs : List BasicBlock) (blk : Nat) (a : Var)
    (h : blk < bs.length) :
    totalParams (listModify bs blk (fun b => BasicBlock.mk (b.operands ++ [a]) b.ops))
      = totalParams bs + 1 := by
  induction bs generalizing blk with
  | nil => simp at h
  | cons x xs ih =>
    cases blk with
    | zero =>
      simp [listModify_cons_zero, totalParams, BasicBlock.operands]
      omega
    | succ m =>
      have hm : m < xs.length := by simpa using h
      simp [listModify_cons_succ, totalParams, ih m hm]
      omega

theorem totalOps_modify_addArg (bs : List BasicBlock) (blk : Nat) (a : Var) :
    totalOps (listModify bs blk (fun b => BasicBlock.mk (b.operands ++ [a]) b.ops))
      = totalOps bs := by
  induction bs generalizing blk with
  | nil => rfl
  | cons x xs ih =>
    cases blk with
    | zero => simp [listModify_cons_zero, totalOps, BasicBlock.ops]
    | succ m => simp [listModify_cons_succ, totalOps, ih m]

theorem totalOps_modify_addOp (bs : List BasicBlock) (blk : Nat) (op : Operation)
    (h : blk < bs.length) :
    totalOps (listModify bs blk (fun b => BasicBlock.mk b.operands (b.ops ++ [op])))
      = totalOps bs + 1 := by
  induction bs generalizing blk with
  | nil => simp at h
  | cons x xs ih =>
    cases blk with
    | zero =>
      simp [listModify_cons_zero, totalOps, BasicBlock.ops]
      omega
    | succ m =>
      have hm : m < xs.length := by simpa using h
      simp [listModify_cons_succ, totalOps, ih m hm]
      omega

theorem totalParams_modify_addOp (bs : List BasicBlock) (blk : Nat) (op : Operation) :
    totalParams (listModify bs blk (fun b => BasicBlock.mk b.operands (b.ops ++ [op])))
      = totalParams bs := by
  induction bs generalizing blk with
  | nil => rfl
  | cons x xs ih =>
    cases blk with
    | zero => simp [listModify_cons_zero, totalParams, BasicBlock.operands]
    | succ m => simp [listModify_cons_succ, totalParams, ih m]

theorem opsLenAt_modify_addArg (bs : List BasicBlock) (blk i : Nat) (a : Var) :
    opsLenAt (listModify bs blk (fun b => BasicBlock.mk (b.operands ++ [a]) b.ops)) i
      = opsLenAt bs i := by
  by_cases hib : i = blk
  · subst hib
    cases h : bs[i]? with
    | none => rw [listModify_of_none _ h]
    | some b =>
      simp [opsLenAt, listModify_getElem_self _ h, h, BasicBlock.ops]
  · simp [opsLenAt, listModify_getElem_ne _ hib]

theorem opsLenAt_modify_addOp_self {bs : List BasicBlock} {blk : Nat} {b : BasicBlock}
    (op : Operation) (h : bs[blk]? = some b) :
    opsLenAt (listModify bs blk (fun bb => BasicBlock.mk bb.operands (bb.ops ++ [op]))) blk
      = b.ops.length + 1 := by
  simp [opsLenAt, listModify_getElem_self _ h, BasicBlock.ops]

theorem opsLenAt_modify_addOp_ne {bs : List BasicBlock} {blk i : Nat}
    (op : Operation) (h : i ≠ blk) :
    opsLenAt (listModify bs blk (fun bb => BasicBlock.mk bb.operands (bb.ops ++ [op]))) i
      = opsLenAt bs i := by
  simp [opsLenAt, listModify_getElem_ne _ h]

theorem opsLenAt_append_lt (bs : List BasicBlock) (b : BasicBlock) {i : Nat}
    (h : i < bs.length) : opsLenAt (bs ++ [b]) i = opsLenAt bs i := by
  simp [opsLenAt, append_single_getElem, h]

theorem opsLenAt_of_getElem {bs : List BasicBlock} {blk : Nat} {b : BasicBlock}
    (h : bs[blk]? = some b) : opsLenAt bs blk = b.ops.length := by
  simp [opsLenAt, h]

theorem opsLenAt_of_ge {bs : List BasicBlock} {i : Nat} (h : bs.length ≤ i) :
    opsLenAt bs i = 0 := by
  simp [opsLenAt, List.getElem?_eq_none h]

theorem opsLenAt_append_le (bs : List BasicBlock) (b : BasicBlock) (i : Nat) :
    opsLenAt bs i ≤ opsLenAt (bs ++ [b]) i := by
  by_cases h : i < bs.length
  · rw [opsLenAt_append_lt bs b h]
  · rw [opsLenAt_of_ge (by omega)]
    exact Nat.zero_le _

theorem EntryOk.mono {bs bs' : List BasicBlock} {e : Int × Int}
    (hlen : bs.length ≤ bs'.length) (hops : ∀ i, opsLenAt bs i ≤ opsLenAt bs' i)
    (h : EntryOk bs e) : EntryOk bs' e := by
  obtain ⟨h1, h2, h3⟩ := h
  refine ⟨h1, by omega, ?_⟩
  cases h3 with
  | inl hl => exact Or.inl hl
  | inr hr => exact Or.inr ⟨hr.1, lt_of_lt_of_le hr.2 (hops _)⟩

theorem opEntriesInj_append_param {defs : List (Int × Int)} {b : Int}
    (hinj : OpEntriesInj defs) : OpEntriesInj (defs ++ [(b, -1)]) := by
  intro i j e hi hj hpos
  rw [append_single_getElem] at hi hj
  by_cases h1 : i < defs.length
  · by_cases h2 : j < defs.length
    · rw [if_pos h1] at hi
      rw [if_pos h2] at hj
      exact hinj i j e hi hj hpos
    · by_cases h2' : j = defs.length
      · rw [if_neg h2, if_pos h2'] at hj
        cases hj
        simp at hpos
      · rw [if_neg h2, if_neg h2'] at hj
        cases hj
  · by_cases h1' : i = defs.length
    · rw [if_neg h1, if_pos h1'] at hi
      cases hi
      simp at hpos
    · rw [if_neg h1, if_neg h1'] at hi
      cases hi

theorem opEntriesInj_append_op {defs : List (Int × Int)} {bs : List BasicBlock}
    {blk : Nat} (hinj : OpEntriesInj defs) (hok : ∀ e ∈ defs, EntryOk bs e) :
    OpEntriesInj (defs ++ [(Int.ofNat blk, Int.ofNat (opsLenAt bs blk))]) := by
  have hfresh : ((Int.ofNat blk, Int.ofNat (opsLenAt bs blk)) : Int × Int) ∉ defs := by
    intro hmem
    obtain ⟨_, _, h3⟩ := hok _ hmem
    cases h3 with
    | inl hl => simp at hl
    | inr hr =>
      have h4 : (Int.ofNat (opsLenAt bs blk)).toNat
          < opsLenAt bs ((Int.ofNat blk, Int.ofNat (opsLenAt bs blk)) : Int × Int).1.toNat :=
        hr.2
      simp [Int.toNat_ofNat] at h4
  intro i j e hi hj hpos
  rw [append_single_getElem] at hi hj
  by_cases h1 : i < defs.length
  · by_cases h2 : j < defs.length
    · rw [if_pos h1] at hi
      rw [if_pos h2] at hj
      exact hinj i j e hi hj hpos
    · by_cases h2' : j = defs.length
      · rw [if_neg h2, if_pos h2'] at hj
        cases hj
        rw [if_pos h1] at hi
        exact absurd (List.getElem?_mem hi) hfresh
      · rw [if_neg h2, if_neg h2'] at hj
        cases hj
  · by_cases h1' : i = defs.length
    · rw [if_neg h1, if_pos h1'] at hi
      cases hi
      by_cases h2 : j < defs.length
      · rw [if_pos h2] at hj
        exact absurd (List.getElem?_mem hj) hfresh
      · by_cases h2' : j = defs.length
        · omega
        · rw [if_neg h2, if_neg h2'] at hj
          cases hj
    · rw [if_neg h1, if_neg h1'] at hi
      cases hi

theorem SSACFG.push_arg_defs (g : SSACFG) (blk : Nat) :
    (g.push_arg blk).1.defs = g.defs ++ [(Int.ofNat blk, -1)] := rfl

theorem SSACFG.push_arg_blocks (g : SSACFG) (blk : Nat) :
    (g.push_arg blk).1.blocks =
      listModify g.blocks blk
        (fun b => BasicBlock.mk (b.operands ++ [(⟨g.defs.length⟩ : Var)]) b.ops) := rfl

theorem SSACFG.push_op_defs (g : SSACFG) (blk : Nat) (op : Operation) :
    (g.push_op blk op).1.defs =
      g.defs ++ [(Int.ofNat blk, Int.ofNat (opsLenAt g.blocks blk))] := rfl

theorem SSACFG.push_op_blocks (g : SSACFG) (blk : Nat) (op : Operation) :
    (g.push_op blk op).1.blocks =
      listModify g.blocks blk (fun b => BasicBlock.mk b.operands (b.ops ++ [op])) := rfl

theorem Graph.push_single_op_defs (g : Graph) (op : Operation) :
    (g.push_op op).1.defs =
      g.defs ++ [(Int.ofNat 0, Int.ofNat (opsLenAt g.blocks 0))] := rfl

theorem Graph.push_single_op_blocks (g : Graph) (op : Operation) :
    (g.push_op op).1.blocks =
      listModify g.blocks 0 (fun b => BasicBlock.mk b.operands (b.ops ++ [op])) := rfl

/-- Preservation of the density and entry invariants under a pushed
block parameter. -/
theorem wf_core_push_arg {defs : List (Int × Int)} {bs : List BasicBlock} {blk : Nat}
    (hblk : blk < bs.length) (a : Var)
    (hd : defs.length = totalParams bs + totalOps bs)
    (he : ∀ e ∈ defs, EntryOk bs e) (hi : OpEntriesInj defs) :
    (defs ++ [(Int.ofNat blk, -1)]).length =
        totalParams (listModify bs blk (fun b => BasicBlock.mk (b.operands ++ [a]) b.ops))
          + totalOps (listModify bs blk (fun b => BasicBlock.mk (b.operands ++ [a]) b.ops))
    ∧ (∀ e ∈ defs ++ [(Int.ofNat blk, -1)],
         EntryOk (listModify bs blk (fun b => BasicBlock.mk (b.operands ++ [a]) b.ops)) e)
    ∧ OpEntriesInj (defs ++ [(Int.ofNat blk, -1)]) := by
  refine ⟨?_, ?_, opEntriesInj_append_param hi⟩
  · rw [totalParams_modify_addArg bs blk a hblk, totalOps_modify_addArg bs blk a]
    simp [hd]
    omega
  · intro e hmem
    rcases List.mem_append.mp hmem with hold | hnew
    · exact EntryOk.mono (by rw [listModify_length]) (fun i => by rw [opsLenAt_modify_addArg])
        (he e hold)
    · have : e = (Int.ofNat blk, -1) := by simpa using hnew
      subst this
      exact ⟨by simp, by simpa [listModify_length] using hblk, Or.inl rfl⟩

/-- Preservation of the density and entry invariants under a pushed
operation. -/
theorem wf_core_push_op {defs : List (Int × Int)} {bs : List BasicBlock} {blk : Nat}
    (hblk : blk < bs.length) (op : Operation)
    (hd : defs.length = totalParams bs + totalOps bs)
    (he : ∀ e ∈ defs, EntryOk bs e) (hi : OpEntriesInj defs) :
    (defs ++ [(Int.ofNat blk, Int.ofNat (opsLenAt bs blk))]).length =
        totalParams (listModify bs blk (fun b => BasicBlock.mk b.operands (b.ops ++ [op])))
          + totalOps (listModify bs blk (fun b => BasicBlock.mk b.operands (b.ops ++ [op])))
    ∧ (∀ e ∈ defs ++ [(Int.ofNat blk, Int.ofNat (opsLenAt bs blk))],
         EntryOk (listModify bs blk (fun b => BasicBlock.mk b.operands (b.ops ++ [op]))) e)
    ∧ OpEntriesInj (defs ++ [(Int.ofNat blk, Int.ofNat (opsLenAt bs blk))]) := by
  have hbbe : ∃ b, bs[blk]? = some b := ⟨_, List.getElem?_eq_getElem hblk⟩
  obtain ⟨bb, hbb⟩ := hbbe
  have hops : ∀ i, opsLenAt bs i
      ≤ opsLenAt (listModify bs blk (fun b => BasicBlock.mk b.operands (b.ops ++ [op]))) i := by
    intro i
    by_cases hib : i = blk
    · subst hib
      rw [opsLenAt_modify_addOp_self op hbb, opsLenAt_of_getElem hbb]
      omega
    · rw [opsLenAt_modify_addOp_ne op hib]
  refine ⟨?_, ?_, opEntriesInj_append_op hi he⟩
  · rw [totalParams_modify_addOp bs blk op, totalOps_modify_addOp bs blk op hblk]
    simp [hd]
    omega
  · intro e hmem
    rcases List.mem_append.mp hmem with hold | hnew
    · exact EntryOk.mono (by rw [listModify_length]) hops (he e hold)
    · have : e = (Int.ofNat blk, Int.ofNat (opsLenAt bs blk)) := by simpa using hnew
      subst this
      refine ⟨by simp, by simpa [listModify_length] using hblk, Or.inr ⟨by simp, ?_⟩⟩
      show opsLenAt bs blk < opsLenAt
        (listModify bs blk (fun b => BasicBlock.mk b.operands (b.ops ++ [op]))) blk
      rw [opsLenAt_modify_addOp_self op hbb, opsLenAt_of_getElem hbb]
      omega

/-- Preservation of the density and entry invariants under a pushed
empty block. -/
theorem wf_core_push_block {defs : List (Int × Int)} {bs : List BasicBlock}
    (hd : defs.length = totalParams bs + totalOps bs)
    (he : ∀ e ∈ defs, EntryOk bs e) (hi : OpEntriesInj defs) :
    defs.length = totalParams (bs ++ [BasicBlock.default])
          + totalOps (bs ++ [BasicBlock.default])
    ∧ (∀ e ∈ defs, EntryOk (bs ++ [BasicBlock.default]) e)
    ∧ OpEntriesInj defs := by
  refine ⟨?_, ?_, hi⟩
  · rw [totalParams_append, totalOps_append]
    simp [totalParams, totalOps, BasicBlock.default, BasicBlock.operands, BasicBlock.ops, hd]
  · intro e hmem
    exact EntryOk.mono (by simp) (opsLenAt_append_le bs _) (he e hmem)

/-- The Graph has_block test is the emptiness test on blocks. -/
theorem has_block_false_iff (g : Graph) : g.has_block = false ↔ g.blocks = [] := by
  unfold Graph.has_block
  cases hb : g.blocks with
  | nil => simp
  | cons x xs => simp

/-- Well-formed regions with no blocks have no defs entries. -/
theorem defs_nil_of_no_blocks {defs : List (Int × Int)}
    (he : ∀ e ∈ defs, EntryOk [] e) : defs = [] := by
  cases hd : defs with
  | nil => rfl
  | cons e es =>
    have := he e (by simp [hd])
    obtain ⟨_, h2, _⟩ := this
    simp at h2

/-- The invariants of interest hold on every reachable region. -/
theorem reach_invariants {r : Region} (h : Reach r) : RegionWF r ∧ GraphShape r := by
  induction h with
  | emptyDirected =>
    refine ⟨⟨rfl, ?_, ?_⟩, trivial⟩
    · intro e hmem
      simp [Region.defsOf, SSACFG.default, SSACFG.defs] at hmem
    · intro i j e hi
      simp [Region.defsOf, SSACFG.default, SSACFG.defs] at hi
  | emptyUndirected =>
    refine ⟨⟨rfl, ?_, ?_⟩, by simp [GraphShape, Graph.default, Graph.blocks, Graph.defs]⟩
    · intro e hmem
      simp [Region.defsOf, Graph.default, Graph.defs] at hmem
    · intro i j e hi
      simp [Region.defsOf, Graph.default, Graph.defs] at hi
  | @pushBlock r r' _ hpb ih =>
    cases r with
    | Directed g =>
      obtain ⟨gd, gb⟩ := g
      simp only [Region.push_block, SSACFG.push_block, SSACFG.defs, SSACFG.blocks,
        Except.ok.injEq] at hpb
      subst hpb
      obtain ⟨⟨hd, he, hi⟩, _⟩ := ih
      simp only [Region.defsOf, Region.blocksOf, SSACFG.defs, SSACFG.blocks] at hd he hi
      have hcore := wf_core_push_block hd he hi
      refine ⟨?_, trivial⟩
      simp only [RegionWF, Region.defsOf, Region.blocksOf, SSACFG.defs, SSACFG.blocks]
      exact hcore
    | Undirected g =>
      obtain ⟨gd, gb⟩ := g
      simp only [Region.push_block] at hpb
      by_cases hb : (Graph.mk gd gb).has_block
      · simp [hb] at hpb
      · simp only [Bool.not_eq_true] at hb
        rw [hb] at hpb
        simp only [Bool.false_eq_true, if_false, Except.ok.injEq] at hpb
        subst hpb
        obtain ⟨⟨hd, he, hi⟩, _⟩ := ih
        simp only [Region.defsOf, Region.blocksOf, Graph.defs, Graph.blocks] at hd he hi
        have hbnil : gb = [] := by
          simpa [Graph.blocks] using (has_block_false_iff (Graph.mk gd gb)).mp hb
        subst hbnil
        have hdnil : gd = [] := defs_nil_of_no_blocks he
        subst hdnil
        refine ⟨⟨?_, ?_, ?_⟩, ?_⟩
        · simp [Region.defsOf, Region.blocksOf, Graph.push_block, Graph.defs, Graph.blocks,
            totalParams, totalOps, BasicBlock.default, BasicBlock.operands, BasicBlock.ops]
        · intro e hmem
          simp [Region.defsOf, Graph.push_block, Graph.defs] at hmem
        · intro i j e hie
          simp [Region.defsOf, Graph.push_block, Graph.defs] at hie
        · exact ⟨by simp [Graph.push_block, Graph.blocks], by
            intro e hmem
            simp [Graph.push_block, Graph.defs] at hmem⟩
  | @pushArg r blk r' v _ hblk hpa ih =>
    cases r with
    | Directed g =>
      obtain ⟨gd, gb⟩ := g
      simp only [Region.push_arg, Except.ok.injEq, Prod.mk.injEq] at hpa
      obtain ⟨hr', _⟩ := hpa
      subst hr'
      obtain ⟨⟨hd, he, hi⟩, _⟩ := ih
      simp only [Region.defsOf, Region.blocksOf, SSACFG.defs, SSACFG.blocks] at hd he hi
      simp only [Region.blocksOf, SSACFG.blocks] at hblk
      have hcore := wf_core_push_arg hblk (⟨gd.length⟩ : Var) hd he hi
      refine ⟨?_, trivial⟩
      simp only [RegionWF, Region.defsOf, Region.blocksOf, SSACFG.push_arg,
        SSACFG.defs, SSACFG.blocks]
      exact hcore
    | Undirected g => simp [Region.push_arg] at hpa
  | @pushOp r blk op r' v _ hblk hpo ih =>
    cases r with
    | Directed g =>
      obtain ⟨gd, gb⟩ := g
      simp only [Region.push_op, Prod.mk.injEq] at hpo
      obtain ⟨hr', _⟩ := hpo
      subst hr'
      obtain ⟨⟨hd, he, hi⟩, _⟩ := ih
      simp only [Region.defsOf, Region.blocksOf, SSACFG.defs, SSACFG.blocks] at hd he hi
      simp only [blkOk, SSACFG.blocks] at hblk
      have hcore := wf_core_push_op hblk op hd he hi
      refine ⟨?_, trivial⟩
      simp only [RegionWF, Region.defsOf, Region.blocksOf, SSACFG.push_op,
        SSACFG.defs, SSACFG.blocks, opsLenAt]
      simpa [opsLenAt] using hcore
    | Undirected g =>
      obtain ⟨gd, gb⟩ := g
      simp only [Region.push_op, Prod.mk.injEq] at hpo
      obtain ⟨hr', _⟩ := hpo
      subst hr'
      obtain ⟨⟨hd, he, hi⟩, hg⟩ := ih
      simp only [Region.defsOf, Region.blocksOf, Graph.defs, Graph.blocks] at hd he hi
      simp only [blkOk, Graph.blocks] at hblk
      obtain ⟨hg1, hg2⟩ := hg
      simp only [GraphShape, Graph.defs, Graph.blocks] at hg1 hg2
      have hcore := wf_core_push_op hblk op hd he hi
      refine ⟨?_, ?_⟩
      · simp only [RegionWF, Region.defsOf, Region.blocksOf, Graph.push_op,
          Graph.defs, Graph.blocks]
        simpa [opsLenAt] using hcore
      · refine ⟨?_, ?_⟩
        · show (listModify gb 0 _).length ≤ 1
          rw [listModify_length]
          exact hg1
        · intro e hmem
          simp only [Graph.push_op, Graph.defs] at hmem
          rcases List.mem_append.mp hmem with hold | hnew
          · exact hg2 e hold
          · have he2 : e = (Int.ofNat 0, Int.ofNat (opsLenAt gb 0)) := by
              simpa [opsLenAt] using hnew
            subst he2
            simp

/-!
Characterization of the dynamic registry contents. -/

theorem optIsSome_map (f : α → β) (o : Option α) : (o.map f).isSome = o.isSome := by
  cases o <;> rfl

theorem find?_cons_isSome (p : α → Bool) (x : α) (l : List α) :
    (List.find? p (x :: l)).isSome ↔ p x = true ∨ (List.find? p l).isSome := by
  by_cases h : p x
  · rw [List.find?_cons_of_pos _ h]
    simp [h]
  · rw [List.find?_cons_of_neg _ h]
    simp [h]

theorem find_register (r : Registry) (a b : Nat) (vt : VTable) (t c : Nat) :
    ((r.register a b vt).find t c).isSome
      ↔ (a = t ∧ b = c) ∨ (r.find t c).isSome := by
  show ((List.find? (fun e => e.1.1 == t && e.1.2 == c)
      (((a, b), vt) :: r.entries)).map (fun e => e.2)).isSome
    ↔ (a = t ∧ b = c) ∨ (r.find t c).isSome
  rw [optIsSome_map, find?_cons_isSome]
  simp only [Registry.find, optIsSome_map, Bool.and_eq_true, beq_iff_eq]

theorem find_dynamic_fold (cs : List Nat) (d : TypeDecl) (r0 : Registry) (t c : Nat) :
    (((cs.foldl (fun r c => r.register d.selfId c (VTable.forPair d.selfId c)) r0)).find
        t c).isSome
      ↔ (d.selfId = t ∧ c ∈ cs) ∨ (r0.find t c).isSome := by
  induction cs generalizing r0 with
  | nil => simp
  | cons x xs ih =>
    simp only [List.foldl_cons]
    rw [ih]
    rw [find_register]
    constructor
    · rintro (⟨h1, h2⟩ | h | h)
      · exact Or.inl ⟨h1, by simp [h2]⟩
      · exact Or.inl ⟨h.1, by simp [h.2]⟩
      · exact Or.inr h
    · rintro (⟨h1, h2⟩ | h)
      · rcases List.mem_cons.mp h2 with hx | hxs
        · exact Or.inr (Or.inl ⟨h1, hx.symm⟩)
        · exact Or.inl ⟨h1, hxs⟩
      · exact Or.inr (Or.inr h)

theorem find_dynamicInterfaces (r : Registry) (d : TypeDecl) (cs : List Nat) (t c : Nat) :
    ((dynamicInterfaces r d cs).find t c).isSome
      ↔ (d.selfId = t ∧ (c = d.selfId ∨ c = objectId ∨ c ∈ cs))
        ∨ (r.find t c).isSome := by
  unfold dynamicInterfaces
  rw [find_dynamic_fold, find_register, find_register]
  constructor
  · rintro (⟨h1, h2⟩ | ⟨h1, h2⟩ | ⟨h1, h2⟩ | h)
    · exact Or.inl ⟨h1, Or.inr (Or.inr h2)⟩
    · exact Or.inl ⟨h1, Or.inr (Or.inl h2.symm)⟩
    · exact Or.inl ⟨h1, Or.inl h2.symm⟩
    · exact Or.inr h
  · rintro (⟨h1, h2 | h2 | h2⟩ | h)
    · exact Or.inr (Or.inr (Or.inl ⟨h1, h2.symm⟩))
    · exact Or.inr (Or.inl ⟨h1, h2.symm⟩)
    · exact Or.inl ⟨h1, h2⟩
    · exact Or.inr (Or.inr (Or.inr h))

theorem find_empty (t c : Nat) : (Registry.empty.find t c).isSome ↔ False := by
  simp [Registry.empty, Registry.find, List.find?]

theorem find_registryOfCalls (calls : List (TypeDecl × List Nat)) (t c : Nat) :
    ((registryOfCalls calls).find t c).isSome
      ↔ ∃ p ∈ calls,
          p.1.selfId = t ∧ (c = p.1.selfId ∨ c = objectId ∨ c ∈ p.2) := by
  have main : ∀ (r0 : Registry),
      (((calls.foldl (fun r p => dynamicInterfaces r p.1 p.2) r0)).find t c).isSome
        ↔ (∃ p ∈ calls,
            p.1.selfId = t ∧ (c = p.1.selfId ∨ c = objectId ∨ c ∈ p.2))
          ∨ (r0.find t c).isSome := by
    intro r0
    induction calls generalizing r0 with
    | nil => simp
    | cons x xs ih =>
      simp only [List.foldl_cons]
      rw [ih]
      rw [find_dynamicInterfaces]
      constructor
      · rintro (⟨p, hp, h1, h2⟩ | ⟨h1, h2⟩ | h)
        · exact Or.inl ⟨p, by simp [hp], h1, h2⟩
        · exact Or.inl ⟨x, by simp, h1, h2⟩
        · exact Or.inr h
      · rintro (⟨p, hp, h1, h2⟩ | h)
        · rcases List.mem_cons.mp hp with hx | hxs
          · subst hx
            exact Or.inr (Or.inl ⟨h1, h2⟩)
          · exact Or.inl ⟨p, hxs, h1, h2⟩
        · exact Or.inr (Or.inr h)
  rw [registryOfCalls, main Registry.empty, find_empty]
  simp

/-- Query characterization for a capability distinct from the queried
value's own type and from Object. -/
theorem queryVtable_isSome (d : TypeDecl) (reg : Registry) (c : Nat)
    (hself : c ≠ d.selfId) (hobj : c ≠ objectId) :
    (queryVtable d reg c).isSome ↔ c ∈ d.ifaces ∨ (reg.find d.selfId c).isSome := by
  unfold queryVtable
  rw [if_neg hself, if_neg hobj]
  cases hf : d.ifaces.find? (fun x => x == c) with
  | none =>
    have : c ∉ d.ifaces := by
      intro hmem
      have := List.find?_eq_none.mp hf c hmem
      simp at this
    simp [this]
  | some x =>
    have hx := List.find?_some hf
    have hmemx := List.mem_of_find?_eq_some hf
    simp only [beq_iff_eq] at hx
    subst hx
    simp [hmemx]

/-- A verifier chain succeeds exactly when every verifier in it
succeeds. -/
theorem runVerifiers_ok_iff (fs : List (Operation → Except String Unit)) (op : Operation) :
    runVerifiers fs op = .ok () ↔ ∀ f ∈ fs, f op = .ok () := by
  induction fs with
  | nil => simp [runVerifiers]
  | cons f fs ih =>
    simp only [runVerifiers]
    cases hf : f op with
    | error e =>
      simp only [List.mem_cons]
      constructor
      · intro h
        cases h
      · intro h
        have := h f (Or.inl rfl)
        rw [hf] at this
        cases this
    | ok u =>
      cases u
      rw [ih]
      simp only [List.mem_cons]
      constructor
      · intro h g hg
        rcases hg with hg | hg
        · subst hg; exact hf
        · exact h g hg
      · intro h g hg
        exact h g (Or.inr hg)

/-- The synthesized verify succeeds exactly when every claimed
capability's verify succeeds. -/
theorem intrinsicDecl_verify_ok_iff (d : IntrinsicDecl) (op : Operation) :
    d.verify op = .ok ()
      ↔ ∀ f ∈ d.traitVerifiers ++ d.requiredVerifiers, f op = .ok () := by
  unfold IntrinsicDecl.verify
  cases h1 : runVerifiers d.traitVerifiers op with
  | error e =>
    constructor
    · intro h
      cases h
    · intro h
      have : runVerifiers d.traitVerifiers op = .ok () := by
        rw [runVerifiers_ok_iff]
        intro f hf
        exact h f (List.mem_append.mpr (Or.inl hf))
      rw [h1] at this
      cases this
  | ok u =>
    cases u
    rw [runVerifiers_ok_iff]
    have h1' := (runVerifiers_ok_iff d.traitVerifiers op).mp h1
    constructor
    · intro h f hf
      rcases List.mem_append.mp hf with hf | hf
      · exact h1' f hf
      · exact h f hf
    · intro h f hf
      exact h f (List.mem_append.mpr (Or.inr hf))

/-- The stepGo loop succeeds exactly on StepOk derivations. -/
theorem stepGo_ok_iff {L : Type}
    (sem : IntrinsicId → Option (Operation → List L → Except String L))
    (i : Interpreter L) (l : List (Var × Operation)) (i' : Interpreter L) :
    Interpreter.stepGo sem i l = .ok i' ↔ StepOk sem i l i' := by
  induction l generalizing i with
  | nil =>
    simp only [Interpreter.stepGo]
    constructor
    · intro h
      cases h
      exact StepOk.nil _
    · intro h
      cases h
      rfl
  | cons p rest ih =>
    obtain ⟨v, o⟩ := p
    simp only [Interpreter.stepGo]
    split
    · rename_i hsem
      constructor
      · intro h
        cases h
      · intro h
        cases h with
        | cons hs _ _ _ => rw [hsem] at hs; cases hs
    · rename_i f hsem
      split
      · rename_i e hres
        constructor
        · intro h
          cases h
        · intro h
          cases h with
          | cons hs hr _ _ =>
            rw [hsem] at hs
            cases hs
            rw [hres] at hr
            cases hr
      · rename_i vtypes hres
        split
        · rename_i e hprop
          constructor
          · intro h
            cases h
          · intro h
            cases h with
            | cons hs hr hp _ =>
              rw [hsem] at hs
              cases hs
              rw [hres] at hr
              cases hr
              rw [hprop] at hp
              cases hp
        · rename_i ltype hprop
          rw [ih]
          constructor
          · intro h
            exact StepOk.cons hsem hres hprop h
          · intro h
            cases h with
            | cons hs hr hp htail =>
              rw [hsem] at hs
              cases hs
              rw [hres] at hr
              cases hr
              rw [hprop] at hp
              cases hp
              exact htail

/-- Every operation visited by a successful step run has lattice
semantics. -/
theorem stepOk_sem_isSome {L : Type}
    {sem : IntrinsicId → Option (Operation → List L → Except String L)}
    {i : Interpreter L} {l : List (Var × Operation)} {i' : Interpreter L}
    (h : StepOk sem i l i') : ∀ p ∈ l, (sem p.2.intrinsic).isSome := by
  induction h with
  | nil => intro p hp; cases hp
  | cons hs _ _ _ ih =>
    intro p hp
    rcases List.mem_cons.mp hp with hp | hp
    · subst hp
      simp [hs]
    · exact ih p hp

/-!
Claim theorems.
-/

/-- Claim C1, counterexample: an Add builder with three operands
violates its claimed NonVariadic capability, whose verify rejects the
constructed operation, yet finish returns Ok with that operation - so
finish does not return a diagnostic error when the builder's state
violates a claimed capability's verify. -/
theorem c1_finish_skips_failing_verify :
    OperationBuilder.finish addBuilder3 = .ok addBuilder3.toOperation
    ∧ IntrinsicDecl.verify addDecl addBuilder3.toOperation
        = .error "NonVariadic arity mismatch."
    ∧ addBuilder3.toOperation.intrinsic = addDecl.id :=
  ⟨rfl, rfl, rfl⟩

/-- Claim C1 (amended): OperationBuilder::finish always returns Ok
with the Operation built from the builder's fields and never invokes
verification, while the verify synthesized by the intrinsic macro -
when invoked - succeeds exactly when every claimed capability's verify
succeeds on the operation. -/
theorem c1_finish_constructs_verify_checks_all :
    (∀ b : OperationBuilder, b.finish = .ok b.toOperation)
    ∧ (∀ (d : IntrinsicDecl) (op : Operation),
        d.verify op = .ok ()
          ↔ ∀ f ∈ d.traitVerifiers ++ d.requiredVerifiers, f op = .ok ()) :=
  ⟨fun _ => rfl, intrinsicDecl_verify_ok_iff⟩

/-- Claim C1, witness: the amended theorem evaluated on a declaration
whose one claimed capability always verifies. -/
theorem c1_witness : IntrinsicDecl.verify chainOkDecl emptyTestOp = .ok () :=
  (c1_finish_constructs_verify_checks_all.2 chainOkDecl emptyTestOp).mpr (by
    intro f hf
    simp only [chainOkDecl, List.append_nil, List.mem_singleton] at hf
    subst hf
    rfl)

/-- Claim C2: a capability query on a value answers positively exactly
when the capability is in the static interfaces list of the value's
type or was bound to that type by a prior dynamic_interfaces call;
the answer does not depend on when the value was created, and after a
dynamic registration binding the capability to the value's type the
query succeeds. -/
theorem c2_query_iff_declared_or_registered (v : ObjValue)
    (calls : List (TypeDecl × List Nat)) (c : Nat)
    (hself : c ≠ v.decl.selfId) (hobj : c ≠ objectId) :
    ((queryRef v (registryOfCalls calls) c).isSome
       ↔ c ∈ v.decl.ifaces ∨ ∃ p ∈ calls, p.1.selfId = v.decl.selfId ∧ c ∈ p.2)
    ∧ (∀ t : Nat,
        queryRef ⟨v.decl, t⟩ (registryOfCalls calls) c
          = queryRef v (registryOfCalls calls) c)
    ∧ (∀ (reg : Registry) (cs : List Nat), c ∈ cs →
        (queryRef v (dynamicInterfaces reg v.decl cs) c).isSome) := by
  refine ⟨?_, fun t => rfl, ?_⟩
  · show (queryVtable v.decl (registryOfCalls calls) c).isSome ↔ _
    rw [queryVtable_isSome v.decl _ c hself hobj, find_registryOfCalls]
    constructor
    · rintro (h | ⟨p, hp, h1, h2 | h2 | h2⟩)
      · exact Or.inl h
      · rw [h1] at h2
        exact absurd h2 hself
      · exact absurd h2 hobj
      · exact Or.inr ⟨p, hp, h1, h2⟩
    · rintro (h | ⟨p, hp, h1, h2⟩)
      · exact Or.inl h
      · exact Or.inr ⟨p, hp, h1, Or.inr (Or.inr h2)⟩
  · intro reg cs hc
    show (queryVtable v.decl (dynamicInterfaces reg v.decl cs) c).isSome
    rw [queryVtable_isSome v.decl _ c hself hobj]
    exact Or.inr ((find_dynamicInterfaces reg v.decl cs v.decl.selfId c).mpr
      (Or.inl ⟨rfl, Or.inr (Or.inr hc)⟩))

/-- Claim C2, witness: capability 9 is not statically declared for
type 5, but one dynamic_interfaces call binds it, and the query on a
previously created value of type 5 succeeds. -/
theorem c2_witness : (queryRef c2value (registryOfCalls c2calls) 9).isSome :=
  (c2_query_iff_declared_or_registered c2value c2calls 9 (by decide) (by decide)).1.mpr
    (Or.inr ⟨(⟨5, []⟩, [9]), by simp [c2calls], rfl, by simp⟩)

/-- Claim C3, counterexample: with to_pass instrumented to count its
invocations, the first analyze leaves the counter at 1 and caches the
pass under the key; the second analyze with the same key and operation
drives the counter to 2, so to_pass is invoked again even though the
key is already present in the cache. -/
theorem c3_second_analyze_recomputes :
    c3firstRun.1 = 1
    ∧ (c3firstRun.2.1).ask () = some 0
    ∧ c3secondRun.1 = 2
    ∧ c3secondRun.1 ≠ c3firstRun.1 :=
  ⟨rfl, rfl, rfl, by decide⟩

/-- Claim C3 (amended): after a successful analyze the cache holds the
pass object analyze stored and ask returns exactly that object; but a
second analyze with an equal key recomputes unconditionally - the
callback state effect of analyze is always that of to_pass followed by
apply, with no key-presence test. -/
theorem c3_ask_returns_stored_pass :
    (∀ {S K P O E : Type} [DecidableEq K] (ops : AnalysisOps S K P O E)
        (s : S) (am : AnalysisManager K P) (k : K) (op : O) (s' : S)
        (am' : AnalysisManager K P),
        AnalysisManager.analyze ops s am k op = (s', am', .ok ()) →
        ∃ p, am' = am.insertCached k p ∧ am'.ask k = some p)
    ∧ (∀ {S K P O E : Type} [DecidableEq K] (ops : AnalysisOps S K P O E)
        (s : S) (am : AnalysisManager K P) (k : K) (op : O),
        (AnalysisManager.analyze ops s am k op).1
          = (ops.applyPass (ops.toPass s k op).1 (ops.toPass s k op).2 op).1) := by
  constructor
  · intro S K P O E instK ops s am k op s' am' h
    simp only [AnalysisManager.analyze] at h
    cases happ : ops.applyPass (ops.toPass s k op).1 (ops.toPass s k op).2 op with
    | mk s2 r =>
      rw [happ] at h
      cases r with
      | error e => simp at h
      | ok p2 =>
        simp only [Prod.mk.injEq] at h
        refine ⟨p2, h.2.1.symm, ?_⟩
        rw [← h.2.1]
        simp [AnalysisManager.ask, AnalysisManager.insertCached, List.find?]
  · intro S K P O E instK ops s am k op
    simp only [AnalysisManager.analyze]
    cases happ : ops.applyPass (ops.toPass s k op).1 (ops.toPass s k op).2 op with
    | mk s2 r =>
      cases r <;> simp

/-- Claim C3, witness: the stored-pass clause evaluated on the first
counting run. -/
theorem c3_witness :
    ∃ p, c3firstRun.2.1 = AnalysisManager.new.insertCached () p
      ∧ (c3firstRun.2.1).ask () = some p :=
  c3_ask_returns_stored_pass.1 countingOps 0 AnalysisManager.new () 0
    c3firstRun.1 c3firstRun.2.1 rfl

/-- Claim C4: prewalk applies only the manager's own passes and never
consults the nested managers - on a module holding a child operation
that matches the nested manager's target, prewalk returns the
operation unchanged even though the nested manager's pass would have
rewritten the child (it adds a visited attribute). -/
theorem c4_prewalk_ignores_nested_managers :
    OperationPassManager.prewalk outerManager parentOp = .ok parentOp
    ∧ markPass.applyP childOp () = .ok (visitedChildOp, ())
    ∧ visitedChildOp ≠ childOp := by
  refine ⟨rfl, rfl, ?_⟩
  intro h
  simp [visitedChildOp, childOp] at h

/-- Claim C5: push rejects a pass exactly when its target intrinsic is
set and its TypeId differs from the manager's, and otherwise appends
the pass to the pass list. -/
theorem c5_push_target_mismatch {A : Type} (m : OperationPassManager A)
    (p : OperationPassModel A) :
    ((∃ msg, m.push p = .error msg)
       ↔ ∃ v, p.targetIntrinsic = some v ∧ v ≠ m.intrinsicTag)
    ∧ ((p.targetIntrinsic = none ∨ p.targetIntrinsic = some m.intrinsicTag) →
        m.push p = .ok (.mk m.intrinsicTag (m.passes ++ [p]) m.managers m.analysis)) := by
  constructor
  · cases ht : p.targetIntrinsic with
    | none =>
      simp only [OperationPassManager.push, ht]
      constructor
      · rintro ⟨msg, hm⟩
        cases hm
      · rintro ⟨v, hv, _⟩
        cases hv
    | some v =>
      simp only [OperationPassManager.push, ht]
      by_cases hv : v = m.intrinsicTag
      · subst hv
        simp only [beq_self_eq_true, if_true]
        constructor
        · rintro ⟨msg, hm⟩
          cases hm
        · rintro ⟨v', hv', hne⟩
          cases hv'
          exact absurd rfl hne
      · rw [if_neg (by simpa using hv)]
        constructor
        · intro _
          exact ⟨v, rfl, hv⟩
        · intro _
          exact ⟨_, rfl⟩
  · rintro (hn | hs)
    · simp [OperationPassManager.push, hn]
    · simp [OperationPassManager.push, hs]

/-- Claim C5, witness: a pass targeting TypeId 3 is rejected by a
manager with tag 1. -/
theorem c5_witness : ∃ msg, c5manager.push mismatchPass = .error msg :=
  (c5_push_target_mismatch c5manager mismatchPass).1.mpr ⟨3, rfl, by decide⟩

/-- Claim C6: push_arg on an Undirected (Graph) region errors for
every block index, push_block on it errors exactly when it already has
a block, and every reachable Graph region has at most one block and no
region-minted block parameter (no defs entry with negative
position). -/
theorem c6_graph_region_discipline :
    (∀ (g : Graph) (i : Nat), ∃ msg, Region.push_arg (.Undirected g) i = .error msg)
    ∧ (∀ (g : Graph) (b : BasicBlock),
        ((∃ msg, Region.push_block (.Undirected g) b = .error msg)
          ↔ g.has_block = true))
    ∧ (∀ r : Region, Reach r → ∀ g : Graph, r = .Undirected g →
        g.blocks.length ≤ 1 ∧ ∀ e ∈ g.defs, 0 ≤ e.2) := by
  refine ⟨fun g i => ⟨_, rfl⟩, ?_, ?_⟩
  · intro g b
    constructor
    · rintro ⟨msg, hm⟩
      by_cases hb : g.has_block
      · exact hb
      · rw [show Region.push_block (.Undirected g) b
            = if g.has_block
              then .error "Cannot push block onto Graph region which already has a block."
              else .ok (.Undirected (g.push_block b)) from rfl] at hm
        rw [if_neg hb] at hm
        simp at hm
    · intro hb
      refine ⟨"Cannot push block onto Graph region which already has a block.", ?_⟩
      rw [show Region.push_block (.Undirected g) b
          = if g.has_block
            then .error "Cannot push block onto Graph region which already has a block."
            else .ok (.Undirected (g.push_block b)) from rfl]
      rw [hb]
      simp
  · intro r hr g hrg
    subst hrg
    have hshape := (reach_invariants hr).2
    simpa [GraphShape] using hshape

/-- Claim C6, witness: the discipline evaluated on a reachable Graph
region holding one block and one operation. -/
theorem c6_witness :
    c6graph2.blocks.length ≤ 1 ∧ ∀ e ∈ c6graph2.defs, 0 ≤ e.2 :=
  c6_graph_region_discipline.2.2 c6region2
    (@Reach.pushOp c6region1 0 c6op c6region2 ⟨0⟩
      (@Reach.pushBlock (.Undirected Graph.default) c6region1 Reach.emptyUndirected rfl)
      (by show 0 < 1; decide) rfl)
    c6graph2 rfl

/-- Claim C7, counterexample: pushing one empty block and then two
block parameters yields a reachable region whose two live Vars both
carry the defs entry (0, -1) - the uniqueness clause of the claim
fails because all parameters of a block share the (block, -1)
sentinel. -/
theorem c7_param_entries_collide :
    Reach c7r3 ∧ ¬ UniqueLiveEntries c7r3 := by
  constructor
  · exact @Reach.pushArg c7r2 0 c7r3 ⟨1⟩
      (@Reach.pushArg c7r1 0 c7r2 ⟨0⟩
        (@Reach.pushBlock (.Directed SSACFG.default) c7r1 Reach.emptyDirected rfl)
        (by show 0 < 1; decide) rfl)
      (by show 0 < 1; decide) rfl
  · intro h
    have h01 := h 0 1 (0, -1) (0, -1) (by decide) (by decide) (by decide) (by decide) rfl
    exact absurd h01 (by decide)

/-- Claim C7 (amended): every push mints the fresh Var defs.len() and
grows defs by one (so no Var id is reused), after any construction
sequence defs.len() equals the total count of block parameters plus
operations, operation-defined live Vars have pairwise distinct
(block, position) entries, and every other live entry is the
(block, -1) parameter sentinel of a valid block - shared by all
parameters of that block. -/
theorem c7_fresh_dense_unique_ops :
    (∀ (g : SSACFG) (blk : Nat),
        (g.push_arg blk).2 = ⟨g.defs.length⟩
          ∧ (g.push_arg blk).1.defs.length = g.defs.length + 1)
    ∧ (∀ (g : SSACFG) (blk : Nat) (op : Operation),
        (g.push_op blk op).2 = ⟨g.defs.length⟩
          ∧ (g.push_op blk op).1.defs.length = g.defs.length + 1)
    ∧ (∀ (g : Graph) (op : Operation),
        (g.push_op op).2 = ⟨g.defs.length⟩
          ∧ (g.push_op op).1.defs.length = g.defs.length + 1)
    ∧ (∀ r : Region, Reach r →
        r.defsOf.length = totalParams r.blocksOf + totalOps r.blocksOf
        ∧ OpEntriesInj r.defsOf
        ∧ ∀ e ∈ r.defsOf, e.2 < 0 → e.2 = -1 ∧ 0 ≤ e.1) := by
  refine ⟨?_, ?_, ?_, ?_⟩
  · intro g blk
    exact ⟨rfl, by simp [SSACFG.push_arg_defs]⟩
  · intro g blk op
    exact ⟨rfl, by simp [SSACFG.push_op_defs]⟩
  · intro g op
    exact ⟨rfl, by simp [Graph.push_single_op_defs]⟩
  · intro r hr
    obtain ⟨⟨hd, he, hi⟩, _⟩ := reach_invariants hr
    refine ⟨hd, hi, ?_⟩
    intro e hmem hneg
    obtain ⟨h1, _, h3⟩ := he e hmem
    cases h3 with
    | inl hl => exact ⟨hl, h1⟩
    | inr hrr => omega

/-- Claim C7, witness: the density and entry clauses evaluated on the
two-parameter region. -/
theorem c7_witness :
    c7r3.defsOf.length = totalParams c7r3.blocksOf + totalOps c7r3.blocksOf
    ∧ OpEntriesInj c7r3.defsOf
    ∧ ∀ e ∈ c7r3.defsOf, e.2 < 0 → e.2 = -1 ∧ 0 ≤ e.1 :=
  c7_fresh_dense_unique_ops.2.2.2 c7r3
    (@Reach.pushArg c7r2 0 c7r3 ⟨1⟩
      (@Reach.pushArg c7r1 0 c7r2 ⟨0⟩
        (@Reach.pushBlock (.Directed SSACFG.default) c7r1 Reach.emptyDirected rfl)
        (by show 0 < 1; decide) rfl)
      (by show 0 < 1; decide) rfl)

/-- Claim C8: over the operations of the active block of the first
region, step errors when some operation's intrinsic lacks
LatticeSemantics, errors when the first operation's operands do not
all resolve in the environment, and returns Ok exactly on StepOk runs,
in which every operation has semantics and every operand resolves when
its operation is reached. -/
theorem c8_step_requires_semantics_and_operands {L : Type}
    (sem : IntrinsicId → Option (Operation → List L → Except String L))
    (i : Interpreter L) (op : Operation) (r0 : Region)
    (h : op.regions.head? = some r0) :
    ((∃ p ∈ r0.get_block_iter i.active, sem p.2.intrinsic = none) →
        ∃ msg, Interpreter.step sem i op = .error msg)
    ∧ (∀ (v : Var) (o : Operation) (rest : List (Var × Operation)),
        r0.get_block_iter i.active = (v, o) :: rest →
        (∃ e, i.resolve_to_lattice o = .error e) →
        ∃ msg, Interpreter.step sem i op = .error msg)
    ∧ (∀ i', Interpreter.step sem i op = .ok i'
        ↔ StepOk sem i (r0.get_block_iter i.active) i') := by
  have hstep : Interpreter.step sem i op
      = Interpreter.stepGo sem i (r0.get_block_iter i.active) := by
    unfold Interpreter.step
    rw [h]
  refine ⟨?_, ?_, ?_⟩
  · rintro ⟨p, hp, hsem⟩
    cases hs : Interpreter.stepGo sem i (r0.get_block_iter i.active) with
    | error msg => exact ⟨msg, by rw [hstep, hs]⟩
    | ok i' =>
      have hsome := stepOk_sem_isSome ((stepGo_ok_iff sem i _ i').mp hs) p hp
      rw [hsem] at hsome
      simp at hsome
  · rintro v o rest hiter ⟨e, hres⟩
    rw [hstep, hiter]
    simp only [Interpreter.stepGo]
    cases hsem : sem o.intrinsic with
    | none => exact ⟨_, rfl⟩
    | some f =>
      rw [hres]
      exact ⟨e, rfl⟩
  · intro i'
    rw [hstep]
    exact stepGo_ok_iff sem i _ i'

/-- Claim C8, witness: with an empty semantics table, stepping an
operation whose block holds one operation fails. -/
theorem c8_witness : ∃ msg, Interpreter.step noSemTable c8interp c8op = .error msg := by
  refine (c8_step_requires_semantics_and_operands noSemTable c8interp c8op
    (.Undirected c8graph) rfl).1 ⟨(⟨0⟩, c8innerOp), ?_, rfl⟩
  rw [show (Region.Undirected c8graph).get_block_iter c8interp.active
      = [(⟨0⟩, c8innerOp)] from rfl]
  exact List.mem_singleton.mpr rfl

/-- Claim C9: Interpreter::insert placed at an index with live
bindings at and beyond it uses Vec::insert, which shifts the suffix
right: binding Var 1 to 99 in the environment [10, 20, 30] yields
[10, 99, 20, 30], so Var 2 now reads 20 where it read 30 before - the
frame condition on all other Vars is violated. -/
theorem c9_insert_shifts_bindings :
    (c9interp.insert ⟨1⟩ 99).env = [some 10, some 99, some 20, some 30]
    ∧ (c9interp.insert ⟨1⟩ 99).env[2]? = some (some 20)
    ∧ c9interp.env[2]? = some (some 30)
    ∧ (c9interp.insert ⟨1⟩ 99).env[2]? ≠ c9interp.env[2]? := by
  refine ⟨?_, ?_, ?_, ?_⟩ <;> decide

/-- Claim C10: when the materialized pass's apply errors, analyze
propagates exactly that error and returns the cache untouched; if the
key was not cached before, ask still finds nothing afterwards. -/
theorem c10_analyze_error_leaves_cache {S K P O E : Type} [DecidableEq K]
    (ops : AnalysisOps S K P O E) (s : S) (am : AnalysisManager K P) (k : K) (op : O)
    (s2 : S) (e : E)
    (h : ops.applyPass (ops.toPass s k op).1 (ops.toPass s k op).2 op = (s2, .error e)) :
    AnalysisManager.analyze ops s am k op = (s2, am, .error e)
    ∧ (am.ask k = none →
        ((AnalysisManager.analyze ops s am k op).2.1).ask k = none) := by
  have h1 : AnalysisManager.analyze ops s am k op = (s2, am, .error e) := by
    simp only [AnalysisManager.analyze]
    rw [h]
  refine ⟨h1, fun hnone => ?_⟩
  rw [h1]
  exact hnone

/-- Claim C10, witness: the atomicity theorem evaluated on callbacks
whose apply always fails. -/
theorem c10_witness :
    AnalysisManager.analyze failingOps 0 AnalysisManager.new () 0
      = (0, AnalysisManager.new, .error "apply failed") :=
  (c10_analyze_error_leaves_cache failingOps 0 AnalysisManager.new () 0 0
    "apply failed" rfl).1

end Abstraps
